import Mathlib

/- Verification of the kewpie ring-buffer FIFO queue.

Shallow embedding of `kewpie.go` (package `kewpie`): a generic FIFO queue
backed by a ring buffer with automatic growth and shrink.

Modelling conventions:
* The Go slice `data []T` is a Lean `List T`; its length is the capacity.
* Go `int` fields `head`, `tail`, `size` are `Nat` (they are provably
  non-negative throughout; Go `%` on non-negative operands agrees with
  `Nat.mod`).
* The Go zero value of the element type `T` is `(default : T)` for an
  `Inhabited T` instance.
* A Go method with receiver `*Queue[T]` becomes a function
  `Queue T → ... → result × Queue T` (or just `Queue T` when the method
  returns nothing); a `(T, error)` return becomes `T × Option String`,
  where `none` models a `nil` error.
-/

namespace Kewpie

/-- Mirror of the Go struct: `data []T; head, tail, size int`. -/
structure Queue (T : Type) where
  data : List T
  head : Nat
  tail : Nat
  size : Nat
deriving DecidableEq

variable {T : Type} [Inhabited T]

/-- The error message produced by `Dequeue` and `Peek` on an empty queue
(`errors.New("kewpie: queue is empty")`). -/
def emptyQueueMsg : String := "kewpie: queue is empty"

/-- Model of NewQueue(sizes ...int): the variadic argument is a `List Int`;
a missing argument defaults to 1 and any non-positive request is coerced
to 1.  `make([]T, size)` zero-initialises, hence `List.replicate _ default`. -/
def NewQueue (T : Type) [Inhabited T] (sizes : List Int) : Queue T :=
  let size : Int :=
    match sizes with
    | s :: _ => s
    | [] => 1
  let size : Int := if size ≤ 0 then 1 else size
  { data := List.replicate size.toNat default, head := 0, tail := 0, size := 0 }

/-- Model of resize(newCapacity): clamp the capacity to at least `max(size, 1)`,
allocate a zeroed region of that length, copy the `size` live elements
starting at `head` (with wraparound) to the front, and reset the cursors.
The Go loop `for i := 0; i < queue.size; i++ { newData[i] = ... }` over the
zero-initialised `make([]T, newCapacity)` is rendered as a map over
`List.range newCapacity`. -/
def resize (q : Queue T) (newCapacity : Nat) : Queue T :=
  let newCapacity := if newCapacity ≤ q.size then Nat.max q.size 1 else newCapacity
  let newData := (List.range newCapacity).map (fun i =>
    if i < q.size then q.data.getD ((q.head + i) % q.data.length) default else default)
  { data := newData, head := 0, tail := q.size, size := q.size }

/-- The common tail-write step shared by `Enqueue` and the loop body of
`EnqueueBatch`:
`data[tail] = item; tail = (tail + 1) % len(data); size++`. -/
def writeTail (q : Queue T) (item : T) : Queue T :=
  { q with data := q.data.set q.tail item,
           tail := (q.tail + 1) % q.data.length,
           size := q.size + 1 }

/-- Model of Enqueue(data): double the capacity when full, then write at `tail`. -/
def Enqueue (q : Queue T) (data : T) : Queue T :=
  let q := if q.size = q.data.length then resize q (q.data.length * 2) else q
  writeTail q data

/-- The capacity-doubling loop of `EnqueueBatch`:
`for newCapacity < requiredCapacity { newCapacity *= 2 }`.
The extra guard `0 < newCapacity` makes termination provable; it is
unreachable from the queue operations, where the capacity is always ≥ 1
(at `newCapacity = 0` the Go loop would not terminate at all). -/
def growLoop (newCapacity requiredCapacity : Nat) : Nat :=
  if h : 0 < newCapacity ∧ newCapacity < requiredCapacity then
    growLoop (newCapacity * 2) requiredCapacity
  else
    newCapacity
termination_by requiredCapacity - newCapacity
decreasing_by omega

/-- Model of EnqueueBatch(items): no-op on an empty batch; otherwise resize once
(doubling until sufficient) if `size + len(items)` exceeds the capacity,
then run the tail-write loop over the items. -/
def EnqueueBatch (q : Queue T) (items : List T) : Queue T :=
  if items.length = 0 then q
  else
    let requiredCapacity := q.size + items.length
    let currentCapacity := q.data.length
    let q := if currentCapacity < requiredCapacity then
               resize q (growLoop currentCapacity requiredCapacity)
             else q
    items.foldl writeTail q

/-- The mutation block of a successful Dequeue, before the shrink check:
clear the slot at head to the zero value, advance head with wraparound,
decrement size. -/
def dequeueStep (q : Queue T) : Queue T :=
  { q with data := q.data.set q.head default,
           head := (q.head + 1) % q.data.length,
           size := q.size - 1 }

/-- Model of Dequeue(): on an empty queue return the zero value and an error;
otherwise read `data[head]`, clear that slot to the zero value, advance
`head`, decrement `size`, and shrink to half capacity when
`len(data) > 1 && size <= len(data)/4`. -/
def Dequeue (q : Queue T) : T × Option String × Queue T :=
  if q.size = 0 then (default, some emptyQueueMsg, q)
  else
    let element := q.data.getD q.head default
    let q1 := dequeueStep q
    let q2 := if 1 < q1.data.length ∧ q1.size ≤ q1.data.length / 4 then
                resize q1 (q1.data.length / 2)
              else q1
    (element, none, q2)

/-- The loop of `DequeueBatch`: `for i := 0; i < batchSize; i++` runs at
most `batchSize.toNat` iterations (none when `batchSize ≤ 0`), breaking
early on an empty queue; `batch = append(batch, msg)`.  The error branch
(`return nil, err`) is kept although the emptiness test makes it dead. -/
def DequeueBatchLoop (fuel : Nat) (q : Queue T) (batch : List T) :
    List T × Option String × Queue T :=
  match fuel with
  | 0 => (batch, none, q)
  | f + 1 =>
    if q.size = 0 then (batch, none, q)
    else
      match Dequeue q with
      | (msg, none, q1) => DequeueBatchLoop f q1 (batch ++ [msg])
      | (_, some e, q1) => ([], some e, q1)

/-- Model of DequeueBatch(batchSize): the batchSize is a Go int, hence Int. -/
def DequeueBatch (q : Queue T) (batchSize : Int) : List T × Option String × Queue T :=
  DequeueBatchLoop batchSize.toNat q []

/-- Model of Peek(): front element (or zero value and an error when empty); the
receiver is returned unchanged — the method assigns to no field. -/
def Peek (q : Queue T) : T × Option String × Queue T :=
  if q.size = 0 then (default, some emptyQueueMsg, q)
  else (q.data.getD q.head default, none, q)

/-- Model of Size(): returns the size field. -/
def Size (q : Queue T) : Nat := q.size

/- Abstraction and invariants. -/

/-- The logical content of the queue, oldest first: the `size` slots at
indices `(head + i) % capacity` for `i ∈ [0, size)`. -/
def toList (q : Queue T) : List T :=
  (List.range q.size).map (fun i => q.data.getD ((q.head + i) % q.data.length) default)

/-- Representation invariant: capacity ≥ 1, `size ≤ capacity`,
`head < capacity`, and `tail = (head + size) % capacity`. -/
def Inv (q : Queue T) : Prop :=
  1 ≤ q.data.length ∧ q.size ≤ q.data.length ∧ q.head < q.data.length ∧
    q.tail = (q.head + q.size) % q.data.length

instance decInv (q : Queue T) : Decidable (Inv q) :=
  inferInstanceAs (Decidable (1 ≤ q.data.length ∧ q.size ≤ q.data.length ∧
    q.head < q.data.length ∧ q.tail = (q.head + q.size) % q.data.length))

/-- Every storage slot outside the occupied window
`(head + i) % capacity`, `i ∈ [0, size)`, holds the zero value. -/
def ZeroOutside (q : Queue T) : Prop :=
  ∀ j, j < q.data.length → (∀ i, i < q.size → (q.head + i) % q.data.length ≠ j) →
    q.data.getD j default = default

instance decZeroOutside (q : Queue T) [DecidableEq T] : Decidable (ZeroOutside q) :=
  inferInstanceAs (Decidable (∀ j, j < q.data.length →
    (∀ i, i < q.size → (q.head + i) % q.data.length ≠ j) →
    q.data.getD j default = default))

/-- One call of the public API, for quantifying over operation sequences. -/
inductive Op (T : Type) where
  | enqueue (x : T)
  | enqueueBatch (xs : List T)
  | dequeue
  | dequeueBatch (n : Int)
  | peek
  | size

/-- The post-state of one public call. -/
def applyOp (q : Queue T) : Op T → Queue T
  | .enqueue x => Enqueue q x
  | .enqueueBatch xs => EnqueueBatch q xs
  | .dequeue => (Dequeue q).2.2
  | .dequeueBatch n => (DequeueBatch q n).2.2
  | .peek => (Peek q).2.2
  | .size => q

/-- The post-state of a sequence of public calls. -/
def applyOps (q : Queue T) (ops : List (Op T)) : Queue T :=
  ops.foldl applyOp q

/-- Runs n successive Dequeue calls, collecting each returned value and
error. -/
def dequeueAll (q : Queue T) : Nat → List (T × Option String)
  | 0 => []
  | n + 1 =>
    let r := Dequeue q
    (r.1, r.2.1) :: dequeueAll r.2.2 n

/- Allocation-failure model.  The function resize wraps its body in `defer`/`recover`: if `make([]T, newCapacity)`
panics (out of memory), the recover fires before any queue field has been
assigned, so `resize` returns with the queue unchanged.  `resizeOOM` is
`resize` on that failure path, and `EnqueueOOM`/`DequeueOOM` are
Enqueue/Dequeue with the triggering resize failing. -/

/-- Model of resize when the allocation panics: `recover` returns before any
field of the queue has been mutated. -/
def resizeOOM (q : Queue T) (_newCapacity : Nat) : Queue T := q

/-- Model of Enqueue when the growth resize fails: the caller does not observe
the failure and proceeds with the write at `tail`. -/
def EnqueueOOM (q : Queue T) (data : T) : Queue T :=
  let q := if q.size = q.data.length then resizeOOM q (q.data.length * 2) else q
  writeTail q data

/-- Model of Dequeue when the shrink resize fails: the element has already been
removed; the queue keeps its pre-shrink capacity. -/
def DequeueOOM (q : Queue T) : T × Option String × Queue T :=
  if q.size = 0 then (default, some emptyQueueMsg, q)
  else
    let element := q.data.getD q.head default
    let q1 := dequeueStep q
    let q2 := if 1 < q1.data.length ∧ q1.size ≤ q1.data.length / 4 then
                resizeOOM q1 (q1.data.length / 2)
              else q1
    (element, none, q2)

/- List access helpers (getD versions of the set and map-range lemmas). -/

omit [Inhabited T] in
theorem getD_set_self (l : List T) {i : Nat} (h : i < l.length) (a d : T) :
    (l.set i a).getD i d = a := by
  rw [List.getD_eq_getElem _ _ (by simpa using h)]
  simp [List.getElem_set_self]

omit [Inhabited T] in
theorem getD_set_ne (l : List T) {i j : Nat} (h : i ≠ j) (a d : T) :
    (l.set i a).getD j d = l.getD j d := by
  rcases Nat.lt_or_ge j l.length with hj | hj
  · rw [List.getD_eq_getElem _ _ (by simpa using hj), List.getD_eq_getElem _ _ hj]
    exact List.getElem_set_ne h _
  · rw [List.getD_eq_default _ _ (by simpa using hj), List.getD_eq_default _ _ hj]

omit [Inhabited T] in
theorem getD_map_range_lt {n i : Nat} (f : Nat → T) (d : T) (h : i < n) :
    ((List.range n).map f).getD i d = f i := by
  rw [List.getD_eq_getElem _ _ (by simpa using h)]
  simp

omit [Inhabited T] in
theorem getD_replicate (n i : Nat) (d : T) : (List.replicate n d).getD i d = d := by
  rcases Nat.lt_or_ge i n with h | h
  · rw [List.getD_eq_getElem _ _ (by simpa using h)]; simp
  · exact List.getD_eq_default _ _ (by simpa using h)

/-- Two in-range offsets from the same origin with the same ring index are
equal. -/
theorem mod_add_inj {n h a b : Nat} (ha : a < n) (hb : b < n)
    (e : (h + a) % n = (h + b) % n) : a = b := by
  have : a % n = b % n := Nat.ModEq.add_left_cancel' h e
  rwa [Nat.mod_eq_of_lt ha, Nat.mod_eq_of_lt hb] at this

theorem toList_length (q : Queue T) : (toList q).length = q.size := by
  simp [toList]

/- Facts about resize. -/

theorem resize_head (q : Queue T) (n : Nat) : (resize q n).head = 0 := by
  simp only [resize]

theorem resize_tail (q : Queue T) (n : Nat) : (resize q n).tail = q.size := by
  simp only [resize]

theorem resize_size (q : Queue T) (n : Nat) : (resize q n).size = q.size := by
  simp only [resize]

theorem resize_data (q : Queue T) (n : Nat) (h : ¬ n ≤ q.size) :
    (resize q n).data = (List.range n).map (fun i =>
      if i < q.size then q.data.getD ((q.head + i) % q.data.length) default else default) := by
  simp only [resize, if_neg h]

theorem resize_length (q : Queue T) (n : Nat) (h : ¬ n ≤ q.size) :
    (resize q n).data.length = n := by
  rw [resize_data q n h]
  simp

theorem resize_inv (q : Queue T) (n : Nat) (hn : q.size < n) : Inv (resize q n) := by
  have hlen := resize_length q n (by omega)
  refine ⟨by omega, by rw [hlen, resize_size]; omega, by rw [hlen, resize_head]; omega, ?_⟩
  rw [resize_tail, resize_head, resize_size, hlen, Nat.zero_add,
    Nat.mod_eq_of_lt (by omega)]

theorem resize_toList (q : Queue T) (n : Nat) (hn : q.size < n) :
    toList (resize q n) = toList q := by
  unfold toList
  rw [resize_size, resize_head, resize_length q n (by omega), resize_data q n (by omega)]
  apply List.map_congr_left
  intro i hi
  have hi' : i < q.size := List.mem_range.mp hi
  have hmod : (0 + i) % n = i := by
    rw [Nat.zero_add, Nat.mod_eq_of_lt (by omega)]
  rw [hmod, getD_map_range_lt _ _ (by omega), if_pos hi']

theorem resize_zeroOutside (q : Queue T) (n : Nat) (hn : q.size < n) :
    ZeroOutside (resize q n) := by
  intro j hj hout
  rw [resize_length q n (by omega)] at hj
  rw [resize_head, resize_size, resize_length q n (by omega)] at hout
  have hjs : q.size ≤ j := by
    by_contra hlt
    exact hout j (by omega) (by rw [Nat.zero_add, Nat.mod_eq_of_lt (by omega)])
  rw [resize_data q n (by omega), getD_map_range_lt _ _ hj, if_neg (by omega)]

/- Facts about the shared tail-write step. -/

omit [Inhabited T] in
theorem writeTail_length (q : Queue T) (x : T) :
    (writeTail q x).data.length = q.data.length := by
  simp [writeTail]

omit [Inhabited T] in
theorem writeTail_head (q : Queue T) (x : T) : (writeTail q x).head = q.head := rfl

omit [Inhabited T] in
theorem writeTail_size (q : Queue T) (x : T) : (writeTail q x).size = q.size + 1 := rfl

omit [Inhabited T] in
theorem writeTail_inv (q : Queue T) (x : T) (h : Inv q) (hs : q.size < q.data.length) :
    Inv (writeTail q x) := by
  obtain ⟨h1, h2, h3, h4⟩ := h
  refine ⟨?_, ?_, ?_, ?_⟩
  · simpa [writeTail] using h1
  · simp [writeTail]; omega
  · simpa [writeTail] using h3
  · simp only [writeTail, List.length_set]
    rw [h4, Nat.mod_add_mod, Nat.add_assoc]

theorem writeTail_toList (q : Queue T) (x : T) (h : Inv q) (hs : q.size < q.data.length) :
    toList (writeTail q x) = toList q ++ [x] := by
  obtain ⟨h1, h2, h3, h4⟩ := h
  have htl : q.tail < q.data.length := by
    rw [h4]; exact Nat.mod_lt _ (by omega)
  unfold toList writeTail
  simp only [List.length_set, List.range_succ, List.map_append, List.map_cons, List.map_nil]
  congr 1
  · apply List.map_congr_left
    intro i hi
    have hi' : i < q.size := List.mem_range.mp hi
    apply getD_set_ne
    intro e
    have : i = q.size := mod_add_inj (n := q.data.length) (by omega) (by omega) (by rw [← h4, e])
    omega
  · have : (q.head + q.size) % q.data.length = q.tail := h4.symm
    rw [this, getD_set_self _ htl]

theorem writeTail_zeroOutside (q : Queue T) (x : T) (h : Inv q)
    (_hs : q.size < q.data.length) (hz : ZeroOutside q) : ZeroOutside (writeTail q x) := by
  obtain ⟨h1, h2, h3, h4⟩ := h
  intro j hj hout
  rw [writeTail_length] at hj
  have hjt : q.tail ≠ j := by
    have := hout q.size (by rw [writeTail_size]; omega)
    rw [writeTail_head, writeTail_length] at this
    rw [h4]
    exact this
  show (q.data.set q.tail x).getD j default = default
  rw [getD_set_ne _ hjt]
  refine hz j hj ?_
  intro i hi
  have := hout i (by rw [writeTail_size]; omega)
  rwa [writeTail_head, writeTail_length] at this

/- Facts about Enqueue. -/

theorem Enqueue_eq_full (q : Queue T) (x : T) (hf : q.size = q.data.length) :
    Enqueue q x = writeTail (resize q (q.data.length * 2)) x := by
  simp [Enqueue, hf]

theorem Enqueue_eq_slack (q : Queue T) (x : T) (hf : ¬ q.size = q.data.length) :
    Enqueue q x = writeTail q x := by
  simp [Enqueue, hf]

theorem Enqueue_inv (q : Queue T) (x : T) (h : Inv q) : Inv (Enqueue q x) := by
  by_cases hf : q.size = q.data.length
  · rw [Enqueue_eq_full q x hf]
    have hn : q.size < q.data.length * 2 := by
      obtain ⟨h1, _, _, _⟩ := h
      omega
    refine writeTail_inv _ x (resize_inv q _ hn) ?_
    rw [resize_size, resize_length q _ (by omega)]
    omega
  · rw [Enqueue_eq_slack q x hf]
    exact writeTail_inv q x h (by obtain ⟨_, h2, _, _⟩ := h; omega)

theorem Enqueue_toList (q : Queue T) (x : T) (h : Inv q) :
    toList (Enqueue q x) = toList q ++ [x] := by
  by_cases hf : q.size = q.data.length
  · rw [Enqueue_eq_full q x hf]
    have hn : q.size < q.data.length * 2 := by
      obtain ⟨h1, _, _, _⟩ := h
      omega
    rw [writeTail_toList _ x (resize_inv q _ hn) ?_, resize_toList q _ hn]
    rw [resize_size, resize_length q _ (by omega)]
    omega
  · rw [Enqueue_eq_slack q x hf]
    exact writeTail_toList q x h (by obtain ⟨_, h2, _, _⟩ := h; omega)

theorem Enqueue_size (q : Queue T) (x : T) : (Enqueue q x).size = q.size + 1 := by
  by_cases hf : q.size = q.data.length
  · rw [Enqueue_eq_full q x hf, writeTail_size, resize_size]
  · rw [Enqueue_eq_slack q x hf, writeTail_size]

theorem Enqueue_length_full (q : Queue T) (x : T) (h : Inv q)
    (hf : q.size = q.data.length) : (Enqueue q x).data.length = q.data.length * 2 := by
  obtain ⟨h1, _, _, _⟩ := h
  rw [Enqueue_eq_full q x hf, writeTail_length, resize_length q _ (by omega)]

theorem Enqueue_length_slack (q : Queue T) (x : T) (hf : ¬ q.size = q.data.length) :
    (Enqueue q x).data.length = q.data.length := by
  rw [Enqueue_eq_slack q x hf, writeTail_length]

theorem Enqueue_zeroOutside (q : Queue T) (x : T) (h : Inv q) (hz : ZeroOutside q) :
    ZeroOutside (Enqueue q x) := by
  by_cases hf : q.size = q.data.length
  · rw [Enqueue_eq_full q x hf]
    have hn : q.size < q.data.length * 2 := by
      obtain ⟨h1, _, _, _⟩ := h
      omega
    refine writeTail_zeroOutside _ x (resize_inv q _ hn) ?_ (resize_zeroOutside q _ hn)
    rw [resize_size, resize_length q _ (by omega)]
    omega
  · rw [Enqueue_eq_slack q x hf]
    exact writeTail_zeroOutside q x h (by obtain ⟨_, h2, _, _⟩ := h; omega) hz

/- Facts about NewQueue. -/

theorem NewQueue_size (sizes : List Int) : (NewQueue T sizes).size = 0 := by
  cases sizes <;> simp [NewQueue]

theorem NewQueue_head (sizes : List Int) : (NewQueue T sizes).head = 0 := by
  cases sizes <;> simp [NewQueue]

theorem NewQueue_tail (sizes : List Int) : (NewQueue T sizes).tail = 0 := by
  cases sizes <;> simp [NewQueue]

theorem NewQueue_length_pos (sizes : List Int) : 1 ≤ (NewQueue T sizes).data.length := by
  cases sizes with
  | nil => simp [NewQueue]
  | cons s rest =>
    simp only [NewQueue, List.length_replicate]
    split <;> omega

theorem NewQueue_inv (sizes : List Int) : Inv (NewQueue T sizes) := by
  refine ⟨NewQueue_length_pos sizes, ?_, ?_, ?_⟩
  · rw [NewQueue_size]; omega
  · rw [NewQueue_head]
    have := NewQueue_length_pos (T := T) sizes
    omega
  · rw [NewQueue_tail, NewQueue_head, NewQueue_size, Nat.zero_add, Nat.zero_mod]

theorem NewQueue_toList (sizes : List Int) : toList (NewQueue T sizes) = [] := by
  unfold toList
  rw [NewQueue_size]
  simp

theorem NewQueue_zeroOutside (sizes : List Int) : ZeroOutside (NewQueue T sizes) := by
  intro j hj hout
  cases sizes <;> · simp only [NewQueue]
                    exact getD_replicate _ _ _

/- Facts about Dequeue. -/

theorem Dequeue_empty (q : Queue T) (hs : q.size = 0) :
    Dequeue q = (default, some emptyQueueMsg, q) := by
  simp [Dequeue, hs]

theorem Dequeue_eq (q : Queue T) (hs : ¬ q.size = 0) :
    Dequeue q = (q.data.getD q.head default, none,
      if 1 < (dequeueStep q).data.length ∧ (dequeueStep q).size ≤ (dequeueStep q).data.length / 4
      then resize (dequeueStep q) ((dequeueStep q).data.length / 2)
      else dequeueStep q) := by
  simp only [Dequeue, if_neg hs]

theorem dequeueStep_data (q : Queue T) : (dequeueStep q).data = q.data.set q.head default := rfl

theorem dequeueStep_length (q : Queue T) : (dequeueStep q).data.length = q.data.length := by
  simp [dequeueStep]

theorem dequeueStep_size (q : Queue T) : (dequeueStep q).size = q.size - 1 := rfl

theorem dequeueStep_head (q : Queue T) :
    (dequeueStep q).head = (q.head + 1) % q.data.length := rfl

theorem dequeueStep_tail (q : Queue T) : (dequeueStep q).tail = q.tail := rfl

/-- On a nonempty queue the abstract list is the front element followed by
the entries one step further along the ring. -/
theorem toList_cons (q : Queue T) (h : Inv q) (hs : ¬ q.size = 0) :
    toList q = q.data.getD q.head default ::
      (List.range (q.size - 1)).map
        (fun i => q.data.getD ((q.head + (i + 1)) % q.data.length) default) := by
  obtain ⟨h1, h2, h3, h4⟩ := h
  obtain ⟨k, hk⟩ : ∃ k, q.size = k + 1 := ⟨q.size - 1, by omega⟩
  unfold toList
  have hk' : q.size - 1 = k := by omega
  rw [hk', hk, List.range_succ_eq_map, List.map_cons, List.map_map]
  have hhead : q.data.getD ((q.head + 0) % q.data.length) default
      = q.data.getD q.head default := by
    rw [Nat.add_zero, Nat.mod_eq_of_lt h3]
  rw [hhead]
  rfl

theorem dequeueStep_inv (q : Queue T) (h : Inv q) (hs : ¬ q.size = 0) :
    Inv (dequeueStep q) := by
  obtain ⟨h1, h2, h3, h4⟩ := h
  refine ⟨?_, ?_, ?_, ?_⟩
  · rw [dequeueStep_length]; omega
  · rw [dequeueStep_size, dequeueStep_length]; omega
  · rw [dequeueStep_head, dequeueStep_length]
    exact Nat.mod_lt _ (by omega)
  · rw [dequeueStep_tail, dequeueStep_head, dequeueStep_size, dequeueStep_length,
      Nat.mod_add_mod, h4]
    congr 1
    omega

theorem dequeueStep_toList (q : Queue T) (h : Inv q) (hs : ¬ q.size = 0) :
    toList (dequeueStep q) = (toList q).tail := by
  have h' := h
  obtain ⟨h1, h2, h3, h4⟩ := h'
  rw [toList_cons q h hs, List.tail_cons]
  unfold toList
  rw [dequeueStep_size, dequeueStep_length]
  apply List.map_congr_left
  intro i hi
  have hi' : i < q.size - 1 := List.mem_range.mp hi
  rw [dequeueStep_head, dequeueStep_data, Nat.mod_add_mod]
  have hne : (q.head + 1 + i) % q.data.length ≠ q.head := by
    intro e
    have e0 : (q.head + (1 + i)) % q.data.length = (q.head + 0) % q.data.length := by
      rw [Nat.add_zero, Nat.mod_eq_of_lt h3, ← Nat.add_assoc]
      exact e
    have : 1 + i = 0 := mod_add_inj (by omega) (by omega) e0
    omega
  rw [getD_set_ne _ (Ne.symm hne)]
  congr 2
  omega

theorem dequeueStep_zeroOutside (q : Queue T) (h : Inv q) (_hs : ¬ q.size = 0)
    (hz : ZeroOutside q) : ZeroOutside (dequeueStep q) := by
  obtain ⟨h1, h2, h3, h4⟩ := h
  intro j hj hout
  rw [dequeueStep_length] at hj
  rw [dequeueStep_head, dequeueStep_size, dequeueStep_length] at hout
  by_cases hjh : j = q.head
  · rw [dequeueStep_data, hjh, getD_set_self _ h3]
  · rw [dequeueStep_data, getD_set_ne _ (fun e => hjh e.symm)]
    refine hz j hj ?_
    intro i hi
    match i with
    | 0 =>
      rw [Nat.add_zero, Nat.mod_eq_of_lt h3]
      exact fun e => hjh e.symm
    | i' + 1 =>
      have := hout i' (by omega)
      rw [Nat.mod_add_mod] at this
      intro e
      apply this
      rw [← e]
      congr 1
      omega

theorem Dequeue_val (q : Queue T) (h : Inv q) (hs : ¬ q.size = 0) :
    (Dequeue q).1 = (toList q).getD 0 default := by
  rw [Dequeue_eq q hs, toList_cons q h hs]
  rfl

theorem Dequeue_err (q : Queue T) (hs : ¬ q.size = 0) : (Dequeue q).2.1 = none := by
  rw [Dequeue_eq q hs]

theorem Dequeue_post (q : Queue T) (h : Inv q) (hs : ¬ q.size = 0) :
    Inv (Dequeue q).2.2 ∧ toList (Dequeue q).2.2 = (toList q).tail ∧
      (Dequeue q).2.2.size = q.size - 1 := by
  obtain ⟨h1, h2, h3, h4⟩ := h
  rw [Dequeue_eq q hs]
  by_cases hc : 1 < (dequeueStep q).data.length ∧
      (dequeueStep q).size ≤ (dequeueStep q).data.length / 4
  · rw [if_pos hc]
    obtain ⟨hc1, hc2⟩ := hc
    rw [dequeueStep_length] at hc1
    rw [dequeueStep_size, dequeueStep_length] at hc2
    have hlt : (dequeueStep q).size < (dequeueStep q).data.length / 2 := by
      rw [dequeueStep_size, dequeueStep_length]
      omega
    refine ⟨resize_inv _ _ hlt, ?_, ?_⟩
    · rw [resize_toList _ _ hlt, dequeueStep_toList q ⟨h1, h2, h3, h4⟩ hs]
    · rw [resize_size, dequeueStep_size]
  · rw [if_neg hc]
    exact ⟨dequeueStep_inv q ⟨h1, h2, h3, h4⟩ hs,
      dequeueStep_toList q ⟨h1, h2, h3, h4⟩ hs, dequeueStep_size q⟩

theorem Dequeue_inv (q : Queue T) (h : Inv q) : Inv (Dequeue q).2.2 := by
  by_cases hs : q.size = 0
  · rw [Dequeue_empty q hs]
    exact h
  · exact (Dequeue_post q h hs).1

theorem Dequeue_zeroOutside (q : Queue T) (h : Inv q) (hz : ZeroOutside q) :
    ZeroOutside (Dequeue q).2.2 := by
  by_cases hs : q.size = 0
  · rw [Dequeue_empty q hs]
    exact hz
  · rw [Dequeue_eq q hs]
    by_cases hc : 1 < (dequeueStep q).data.length ∧
        (dequeueStep q).size ≤ (dequeueStep q).data.length / 4
    · rw [if_pos hc]
      obtain ⟨hc1, hc2⟩ := hc
      rw [dequeueStep_length] at hc1
      rw [dequeueStep_size, dequeueStep_length] at hc2
      refine resize_zeroOutside _ _ ?_
      rw [dequeueStep_size, dequeueStep_length]
      omega
    · rw [if_neg hc]
      exact dequeueStep_zeroOutside q h hs hz

/- Facts about the capacity-doubling loop. -/

theorem growLoop_ge (c r : Nat) (hc : 0 < c) : r ≤ growLoop c r := by
  induction c, r using growLoop.induct with
  | case1 c r h ih =>
    rw [growLoop, dif_pos h]
    exact ih (by omega)
  | case2 c r h =>
    rw [growLoop, dif_neg h]
    omega

theorem growLoop_pow (c r : Nat) : ∃ k, growLoop c r = c * 2 ^ k := by
  induction c, r using growLoop.induct with
  | case1 c r h ih =>
    obtain ⟨k, hk⟩ := ih
    refine ⟨k + 1, ?_⟩
    rw [growLoop, dif_pos h, hk]
    ring
  | case2 c r h =>
    exact ⟨0, by rw [growLoop, dif_neg h]; ring⟩

theorem growLoop_min (c r : Nat) (hc : 0 < c) :
    growLoop c r = c ∨ growLoop c r / 2 < r := by
  induction c, r using growLoop.induct with
  | case1 c r h ih =>
    rw [growLoop, dif_pos h]
    rcases ih (by omega) with e | hlt
    · right
      rw [e]
      omega
    · right
      exact hlt
  | case2 c r h =>
    left
    rw [growLoop, dif_neg h]

/- Facts about EnqueueBatch. -/

theorem EnqueueBatch_nil (q : Queue T) : EnqueueBatch q [] = q := by
  simp [EnqueueBatch]

theorem EnqueueBatch_eq_grow (q : Queue T) (items : List T) (hne : ¬ items.length = 0)
    (hg : q.data.length < q.size + items.length) :
    EnqueueBatch q items
      = items.foldl writeTail (resize q (growLoop q.data.length (q.size + items.length))) := by
  simp only [EnqueueBatch, if_neg hne, if_pos hg]

theorem EnqueueBatch_eq_fit (q : Queue T) (items : List T) (hne : ¬ items.length = 0)
    (hg : ¬ q.data.length < q.size + items.length) :
    EnqueueBatch q items = items.foldl writeTail q := by
  simp only [EnqueueBatch, if_neg hne, if_neg hg]

theorem foldl_writeTail_spec (items : List T) :
    ∀ q : Queue T, Inv q → q.size + items.length ≤ q.data.length →
      Inv (items.foldl writeTail q) ∧
        toList (items.foldl writeTail q) = toList q ++ items ∧
        (items.foldl writeTail q).data.length = q.data.length ∧
        (items.foldl writeTail q).size = q.size + items.length := by
  induction items with
  | nil =>
    intro q h _
    exact ⟨h, by simp, rfl, rfl⟩
  | cons x xs ih =>
    intro q h hcap
    simp only [List.length_cons] at hcap
    have hs : q.size < q.data.length := by omega
    obtain ⟨hi, ht, hl, hsz⟩ := ih (writeTail q x) (writeTail_inv q x h hs)
      (by rw [writeTail_size, writeTail_length]; omega)
    rw [List.foldl_cons]
    refine ⟨hi, ?_, by rw [hl, writeTail_length], ?_⟩
    · rw [ht, writeTail_toList q x h hs]
      simp
    · rw [hsz, writeTail_size]
      simp
      omega

theorem foldl_writeTail_zeroOutside (items : List T) :
    ∀ q : Queue T, Inv q → q.size + items.length ≤ q.data.length → ZeroOutside q →
      ZeroOutside (items.foldl writeTail q) := by
  induction items with
  | nil =>
    intro q _ _ hz
    exact hz
  | cons x xs ih =>
    intro q h hcap hz
    simp only [List.length_cons] at hcap
    have hs : q.size < q.data.length := by omega
    rw [List.foldl_cons]
    exact ih (writeTail q x) (writeTail_inv q x h hs)
      (by rw [writeTail_size, writeTail_length]; omega)
      (writeTail_zeroOutside q x h hs hz)

theorem EnqueueBatch_spec (q : Queue T) (items : List T) (h : Inv q) :
    Inv (EnqueueBatch q items) ∧ toList (EnqueueBatch q items) = toList q ++ items ∧
      (EnqueueBatch q items).size = q.size + items.length := by
  by_cases hne : items.length = 0
  · rw [List.length_eq_zero] at hne
    subst hne
    rw [EnqueueBatch_nil]
    exact ⟨h, by simp, by simp⟩
  · by_cases hg : q.data.length < q.size + items.length
    · rw [EnqueueBatch_eq_grow q items hne hg]
      obtain ⟨h1, h2, h3, h4⟩ := h
      have hge : q.size + items.length ≤ growLoop q.data.length (q.size + items.length) :=
        growLoop_ge _ _ (by omega)
      have hlt : q.size < growLoop q.data.length (q.size + items.length) := by omega
      obtain ⟨hi, ht, hl, hsz⟩ := foldl_writeTail_spec items _ (resize_inv q _ hlt)
        (by rw [resize_size, resize_length q _ (by omega)]; exact hge)
      refine ⟨hi, ?_, ?_⟩
      · rw [ht, resize_toList q _ hlt]
      · rw [hsz, resize_size]
    · rw [EnqueueBatch_eq_fit q items hne hg]
      exact (foldl_writeTail_spec items q h (by omega)).imp id (fun h' => h'.imp id And.right)

theorem EnqueueBatch_length_grow (q : Queue T) (items : List T) (h : Inv q)
    (hne : ¬ items.length = 0) (hg : q.data.length < q.size + items.length) :
    (EnqueueBatch q items).data.length = growLoop q.data.length (q.size + items.length) := by
  rw [EnqueueBatch_eq_grow q items hne hg]
  obtain ⟨h1, h2, h3, h4⟩ := h
  have hge : q.size + items.length ≤ growLoop q.data.length (q.size + items.length) :=
    growLoop_ge _ _ (by omega)
  have hlt : q.size < growLoop q.data.length (q.size + items.length) := by omega
  obtain ⟨_, _, hl, _⟩ := foldl_writeTail_spec items _ (resize_inv q _ hlt)
    (by rw [resize_size, resize_length q _ (by omega)]; exact hge)
  rw [hl, resize_length q _ (by omega)]

theorem EnqueueBatch_zeroOutside (q : Queue T) (items : List T) (h : Inv q)
    (hz : ZeroOutside q) : ZeroOutside (EnqueueBatch q items) := by
  by_cases hne : items.length = 0
  · rw [List.length_eq_zero] at hne
    subst hne
    rw [EnqueueBatch_nil]
    exact hz
  · by_cases hg : q.data.length < q.size + items.length
    · rw [EnqueueBatch_eq_grow q items hne hg]
      obtain ⟨h1, h2, h3, h4⟩ := h
      have hge : q.size + items.length ≤ growLoop q.data.length (q.size + items.length) :=
        growLoop_ge _ _ (by omega)
      have hlt : q.size < growLoop q.data.length (q.size + items.length) := by omega
      exact foldl_writeTail_zeroOutside items _ (resize_inv q _ hlt)
        (by rw [resize_size, resize_length q _ (by omega)]; exact hge)
        (resize_zeroOutside q _ hlt)
    · rw [EnqueueBatch_eq_fit q items hne hg]
      exact foldl_writeTail_zeroOutside items q h (by omega) hz

/- Repeated single Enqueue, for the batch-equivalence claim. -/

theorem foldl_Enqueue_spec (items : List T) :
    ∀ q : Queue T, Inv q → Inv (items.foldl Enqueue q) ∧
      toList (items.foldl Enqueue q) = toList q ++ items ∧
      (items.foldl Enqueue q).size = q.size + items.length := by
  induction items with
  | nil =>
    intro q h
    exact ⟨h, by simp, by simp⟩
  | cons x xs ih =>
    intro q h
    rw [List.foldl_cons]
    obtain ⟨hi, ht, hsz⟩ := ih (Enqueue q x) (Enqueue_inv q x h)
    refine ⟨hi, ?_, ?_⟩
    · rw [ht, Enqueue_toList q x h]
      simp
    · rw [hsz, Enqueue_size]
      simp
      omega

/- Facts about Peek. -/

theorem Peek_empty (q : Queue T) (hs : q.size = 0) :
    Peek q = (default, some emptyQueueMsg, q) := by
  simp [Peek, hs]

theorem Peek_nonempty (q : Queue T) (hs : ¬ q.size = 0) :
    Peek q = (q.data.getD q.head default, none, q) := by
  simp [Peek, hs]

theorem Peek_state (q : Queue T) : (Peek q).2.2 = q := by
  unfold Peek
  split <;> rfl

/- Successive dequeues read back the abstract list. -/

theorem dequeueAll_spec (n : Nat) :
    ∀ q : Queue T, Inv q → n ≤ q.size →
      dequeueAll q n = ((toList q).take n).map (fun x => (x, (none : Option String))) := by
  induction n with
  | zero =>
    intro q _ _
    simp [dequeueAll]
  | succ m ih =>
    intro q h hn
    have hs : ¬ q.size = 0 := by omega
    obtain ⟨hinv, htl, hsz⟩ := Dequeue_post q h hs
    simp only [dequeueAll]
    rw [Dequeue_val q h hs, Dequeue_err q hs, ih (Dequeue q).2.2 hinv (by omega), htl]
    cases e : toList q with
    | nil =>
      exfalso
      have := toList_length q
      rw [e] at this
      simp at this
      omega
    | cons a t => simp [e]

/-- Dequeue results are determined by the abstract list: two valid queues
with the same logical content yield the same value/error streams. -/
theorem dequeueAll_congr (n : Nat) :
    ∀ q q' : Queue T, Inv q → Inv q' → toList q = toList q' →
      dequeueAll q n = dequeueAll q' n := by
  induction n with
  | zero =>
    intro q q' _ _ _
    simp [dequeueAll]
  | succ m ih =>
    intro q q' h h' e
    have hsz : q.size = q'.size := by
      rw [← toList_length, ← toList_length, e]
    by_cases hs : q.size = 0
    · simp only [dequeueAll]
      rw [Dequeue_empty q hs, Dequeue_empty q' (by omega)]
      exact congrArg _ (ih q q' h h' e)
    · simp only [dequeueAll]
      obtain ⟨hinv, htl, _⟩ := Dequeue_post q h hs
      obtain ⟨hinv', htl', _⟩ := Dequeue_post q' h' (by omega)
      rw [Dequeue_val q h hs, Dequeue_val q' h' (by omega), Dequeue_err q hs,
        Dequeue_err q' (by omega), e]
      exact congrArg _ (ih _ _ hinv hinv' (by rw [htl, htl', e]))

/- Facts about DequeueBatch. -/

theorem DequeueBatchLoop_spec (fuel : Nat) :
    ∀ (q : Queue T) (batch : List T), Inv q →
      (DequeueBatchLoop fuel q batch).1 = batch ++ (toList q).take fuel ∧
        (DequeueBatchLoop fuel q batch).2.1 = none ∧
        toList (DequeueBatchLoop fuel q batch).2.2 = (toList q).drop fuel ∧
        Inv (DequeueBatchLoop fuel q batch).2.2 := by
  induction fuel with
  | zero =>
    intro q batch h
    exact ⟨by simp [DequeueBatchLoop], by simp [DequeueBatchLoop], by simp [DequeueBatchLoop], h⟩
  | succ f ih =>
    intro q batch h
    by_cases hs : q.size = 0
    · have hnil : toList q = [] := by
        have := toList_length q
        rw [hs] at this
        exact List.eq_nil_of_length_eq_zero this
      simp [DequeueBatchLoop, hs, hnil, h]
    · obtain ⟨hinv, htl, hsz⟩ := Dequeue_post q h hs
      rcases hE : Dequeue q with ⟨v, err, st⟩
      have herr : err = none := by
        have := Dequeue_err q hs
        rw [hE] at this
        exact this
      subst herr
      have hv : v = (toList q).getD 0 default := by
        have := Dequeue_val q h hs
        rw [hE] at this
        exact this
      rw [hE] at hinv htl
      simp only [DequeueBatchLoop, if_neg hs, hE]
      obtain ⟨i1, i2, i3, i4⟩ := ih st (batch ++ [v]) hinv
      refine ⟨?_, i2, ?_, i4⟩
      · rw [i1, hv, htl]
        cases e : toList q with
        | nil =>
          exfalso
          have := toList_length q
          rw [e] at this
          simp at this
          omega
        | cons a t => simp [e]
      · rw [i3, htl]
        cases e : toList q with
        | nil =>
          exfalso
          have := toList_length q
          rw [e] at this
          simp at this
          omega
        | cons a t => simp [e]

theorem DequeueBatchLoop_zeroOutside (fuel : Nat) :
    ∀ (q : Queue T) (batch : List T), Inv q → ZeroOutside q →
      ZeroOutside (DequeueBatchLoop fuel q batch).2.2 := by
  induction fuel with
  | zero =>
    intro q batch _ hz
    exact hz
  | succ f ih =>
    intro q batch h hz
    by_cases hs : q.size = 0
    · simp only [DequeueBatchLoop, if_pos hs]
      exact hz
    · have hpost := (Dequeue_post q h hs).1
      have hzs := Dequeue_zeroOutside q h hz
      rcases hE : Dequeue q with ⟨v, err, st⟩
      have herr : err = none := by
        have := Dequeue_err q hs
        rw [hE] at this
        exact this
      subst herr
      rw [hE] at hpost hzs
      simp only [DequeueBatchLoop, if_neg hs, hE]
      exact ih st (batch ++ [v]) hpost hzs

theorem DequeueBatch_spec (q : Queue T) (batchSize : Int) (h : Inv q) :
    (DequeueBatch q batchSize).1 = (toList q).take batchSize.toNat ∧
      (DequeueBatch q batchSize).2.1 = none ∧
      toList (DequeueBatch q batchSize).2.2 = (toList q).drop batchSize.toNat ∧
      Inv (DequeueBatch q batchSize).2.2 := by
  obtain ⟨i1, i2, i3, i4⟩ := DequeueBatchLoop_spec batchSize.toNat q [] h
  exact ⟨by rw [DequeueBatch, i1, List.nil_append], i2, i3, i4⟩

/- Preservation across arbitrary call sequences. -/

theorem applyOp_inv (q : Queue T) (op : Op T) (h : Inv q) : Inv (applyOp q op) := by
  cases op with
  | enqueue x => exact Enqueue_inv q x h
  | enqueueBatch xs => exact (EnqueueBatch_spec q xs h).1
  | dequeue => exact Dequeue_inv q h
  | dequeueBatch n => exact (DequeueBatch_spec q n h).2.2.2
  | peek =>
    show Inv (Peek q).2.2
    rw [Peek_state]
    exact h
  | size => exact h

theorem applyOp_zeroOutside (q : Queue T) (op : Op T) (h : Inv q) (hz : ZeroOutside q) :
    ZeroOutside (applyOp q op) := by
  cases op with
  | enqueue x => exact Enqueue_zeroOutside q x h hz
  | enqueueBatch xs => exact EnqueueBatch_zeroOutside q xs h hz
  | dequeue => exact Dequeue_zeroOutside q h hz
  | dequeueBatch n => exact DequeueBatchLoop_zeroOutside n.toNat q [] h hz
  | peek =>
    show ZeroOutside (Peek q).2.2
    rw [Peek_state]
    exact hz
  | size => exact hz

theorem applyOps_inv (ops : List (Op T)) :
    ∀ q : Queue T, Inv q → Inv (applyOps q ops) := by
  induction ops with
  | nil =>
    intro q h
    exact h
  | cons op rest ih =>
    intro q h
    rw [applyOps, List.foldl_cons]
    exact ih (applyOp q op) (applyOp_inv q op h)

theorem applyOps_zeroOutside (ops : List (Op T)) :
    ∀ q : Queue T, Inv q → ZeroOutside q → ZeroOutside (applyOps q ops) := by
  induction ops with
  | nil =>
    intro q _ hz
    exact hz
  | cons op rest ih =>
    intro q h hz
    rw [applyOps, List.foldl_cons]
    exact ih (applyOp q op) (applyOp_inv q op h) (applyOp_zeroOutside q op h hz)

/- Helper lemmas used by the claim theorems. -/

theorem toList_getD_head_zero (q : Queue T) (i : Nat) (hh : q.head = 0)
    (hc : q.size ≤ q.data.length) (hi : i < q.size) :
    q.data.getD i default = (toList q).getD i default := by
  unfold toList
  rw [getD_map_range_lt _ _ hi, hh, Nat.zero_add, Nat.mod_eq_of_lt (by omega)]

theorem Dequeue_state (q : Queue T) (hs : ¬ q.size = 0) :
    (Dequeue q).2.2
      = if 1 < (dequeueStep q).data.length ∧
            (dequeueStep q).size ≤ (dequeueStep q).data.length / 4
        then resize (dequeueStep q) ((dequeueStep q).data.length / 2)
        else dequeueStep q := by
  rw [Dequeue_eq q hs]

omit [Inhabited T] in
theorem EnqueueOOM_eq (q : Queue T) (x : T) : EnqueueOOM q x = writeTail q x := by
  simp only [EnqueueOOM, resizeOOM, ite_self]

theorem DequeueOOM_eq (q : Queue T) (hs : ¬ q.size = 0) :
    DequeueOOM q = (q.data.getD q.head default, none, dequeueStep q) := by
  simp only [DequeueOOM, if_neg hs, resizeOOM, ite_self]

/- The claims. -/

/-- C1: for every sequence of single-item Enqueue calls followed by the
same number of Dequeue calls, on a queue created with any initial
capacity, every Dequeue succeeds (error nil) and the dequeued elements
come back in exactly the order they were enqueued. -/
theorem C1_fifo_order (sizes : List Int) (xs : List T) :
    dequeueAll (xs.foldl Enqueue (NewQueue T sizes)) xs.length
      = xs.map (fun x => (x, (none : Option String))) := by
  obtain ⟨hinv, htl, hsz⟩ := foldl_Enqueue_spec xs (NewQueue T sizes) (NewQueue_inv sizes)
  rw [dequeueAll_spec xs.length _ hinv (by rw [hsz, NewQueue_size]; omega), htl,
    NewQueue_toList]
  simp

/-- C2: a newly created queue satisfies the representation invariant
(capacity at least 1, size at most capacity — hence capacity at least
max(size, 1) — and tail = (head + size) mod capacity, with the occupied
window read off from head), and every public operation preserves it. -/
theorem C2_invariant_preservation (sizes : List Int) (q : Queue T) (op : Op T)
    (h : Inv q) :
    Inv (NewQueue T sizes) ∧ Inv (applyOp q op) ∧
      Nat.max (applyOp q op).size 1 ≤ (applyOp q op).data.length := by
  have hop := applyOp_inv q op h
  obtain ⟨h1, h2, _, _⟩ := hop
  exact ⟨NewQueue_inv sizes, applyOp_inv q op h, Nat.max_le.mpr ⟨h2, h1⟩⟩

/-- C2 witness: the theorem applied to a concrete queue and operation. -/
theorem C2_invariant_preservation_witness :
    Inv (Enqueue (NewQueue Nat []) 5) ∧
      (Inv (NewQueue Nat [3]) ∧ Inv (applyOp (Enqueue (NewQueue Nat []) 5) Op.dequeue) ∧
        Nat.max (applyOp (Enqueue (NewQueue Nat []) 5) Op.dequeue).size 1
          ≤ (applyOp (Enqueue (NewQueue Nat []) 5) Op.dequeue).data.length) :=
  ⟨by decide, C2_invariant_preservation [3] (Enqueue (NewQueue Nat []) 5) Op.dequeue (by decide)⟩

/-- C3: EnqueueBatch of n elements is observably equivalent to n single
Enqueue calls in order: both append the items to the logical content, the
resulting sizes agree, and every following sequence of dequeues returns
the same values and errors. -/
theorem C3_batch_equivalence (q : Queue T) (items : List T) (n : Nat) (h : Inv q) :
    Size (EnqueueBatch q items) = Size (items.foldl Enqueue q) ∧
      toList (EnqueueBatch q items) = toList q ++ items ∧
      toList (items.foldl Enqueue q) = toList q ++ items ∧
      dequeueAll (EnqueueBatch q items) n = dequeueAll (items.foldl Enqueue q) n := by
  obtain ⟨hb, hbt, hbs⟩ := EnqueueBatch_spec q items h
  obtain ⟨hf, hft, hfs⟩ := foldl_Enqueue_spec items q h
  refine ⟨?_, hbt, hft, dequeueAll_congr n _ _ hb hf (by rw [hbt, hft])⟩
  show (EnqueueBatch q items).size = (items.foldl Enqueue q).size
  rw [hbs, hfs]

/-- C3 witness: the theorem applied to the empty queue and a three-item
batch, as in the spec scenario. -/
theorem C3_batch_equivalence_witness :
    Inv (NewQueue Nat []) ∧
      (Size (EnqueueBatch (NewQueue Nat []) [10, 20, 30])
          = Size ([10, 20, 30].foldl Enqueue (NewQueue Nat [])) ∧
        toList (EnqueueBatch (NewQueue Nat []) [10, 20, 30])
          = toList (NewQueue Nat []) ++ [10, 20, 30] ∧
        toList ([10, 20, 30].foldl Enqueue (NewQueue Nat []))
          = toList (NewQueue Nat []) ++ [10, 20, 30] ∧
        dequeueAll (EnqueueBatch (NewQueue Nat []) [10, 20, 30]) 3
          = dequeueAll ([10, 20, 30].foldl Enqueue (NewQueue Nat [])) 3) :=
  ⟨by decide, C3_batch_equivalence (NewQueue Nat []) [10, 20, 30] 3 (by decide)⟩

/-- C4: DequeueBatch returns the min(batchSize, size) oldest elements in
FIFO order with a nil error — also on an empty queue and for zero or
negative batch sizes, where it returns the empty sequence — and leaves
exactly the remaining elements (with the invariant intact). -/
theorem C4_dequeueBatch_contract (q : Queue T) (batchSize : Int) (h : Inv q) :
    (DequeueBatch q batchSize).1 = (toList q).take batchSize.toNat ∧
      (DequeueBatch q batchSize).1.length = min batchSize.toNat q.size ∧
      (DequeueBatch q batchSize).2.1 = none ∧
      toList (DequeueBatch q batchSize).2.2 = (toList q).drop batchSize.toNat ∧
      Inv (DequeueBatch q batchSize).2.2 := by
  obtain ⟨i1, i2, i3, i4⟩ := DequeueBatch_spec q batchSize h
  refine ⟨i1, ?_, i2, i3, i4⟩
  rw [i1, List.length_take, toList_length]

/-- C4 witness: the theorem applied to a two-element queue with an
oversized batch request. -/
theorem C4_dequeueBatch_contract_witness :
    Inv (Enqueue (Enqueue (NewQueue Nat []) 1) 2) ∧
      ((DequeueBatch (Enqueue (Enqueue (NewQueue Nat []) 1) 2) 5).1
          = (toList (Enqueue (Enqueue (NewQueue Nat []) 1) 2)).take (Int.toNat 5) ∧
        (DequeueBatch (Enqueue (Enqueue (NewQueue Nat []) 1) 2) 5).1.length
          = min (Int.toNat 5) (Enqueue (Enqueue (NewQueue Nat []) 1) 2).size ∧
        (DequeueBatch (Enqueue (Enqueue (NewQueue Nat []) 1) 2) 5).2.1 = none ∧
        toList (DequeueBatch (Enqueue (Enqueue (NewQueue Nat []) 1) 2) 5).2.2
          = (toList (Enqueue (Enqueue (NewQueue Nat []) 1) 2)).drop (Int.toNat 5) ∧
        Inv (DequeueBatch (Enqueue (Enqueue (NewQueue Nat []) 1) 2) 5).2.2) :=
  ⟨by decide, C4_dequeueBatch_contract (Enqueue (Enqueue (NewQueue Nat []) 1) 2) 5 (by decide)⟩

/-- C5: Dequeue and Peek fail with the empty-queue error exactly when
size = 0 (then Size returns 0); when size > 0 both succeed, Peek returns
the oldest element, and Peek leaves the queue unchanged. -/
theorem C5_empty_queue_errors (q : Queue T) (h : Inv q) :
    ((Dequeue q).2.1 = some emptyQueueMsg ↔ q.size = 0) ∧
      ((Peek q).2.1 = some emptyQueueMsg ↔ q.size = 0) ∧
      (q.size = 0 → Size q = 0) ∧
      (¬ q.size = 0 → (Dequeue q).2.1 = none ∧ (Peek q).2.1 = none ∧
        (Peek q).1 = (toList q).getD 0 default ∧ (Peek q).2.2 = q) := by
  refine ⟨⟨?_, ?_⟩, ⟨?_, ?_⟩, ?_, ?_⟩
  · intro he
    by_contra hs
    rw [Dequeue_err q hs] at he
    exact Option.noConfusion he
  · intro hs
    rw [Dequeue_empty q hs]
  · intro he
    by_contra hs
    rw [Peek_nonempty q hs] at he
    exact Option.noConfusion he
  · intro hs
    rw [Peek_empty q hs]
  · intro hs
    exact hs
  · intro hs
    refine ⟨Dequeue_err q hs, ?_, ?_, ?_⟩
    · rw [Peek_nonempty q hs]
    · rw [Peek_nonempty q hs, toList_cons q h hs]
      rfl
    · rw [Peek_state]

/-- C5 witness: the theorem applied to a nonempty one-element queue. -/
theorem C5_empty_queue_errors_witness :
    Inv (Enqueue (NewQueue Nat []) 7) ∧
      (((Dequeue (Enqueue (NewQueue Nat []) 7)).2.1 = some emptyQueueMsg
          ↔ (Enqueue (NewQueue Nat []) 7).size = 0) ∧
        ((Peek (Enqueue (NewQueue Nat []) 7)).2.1 = some emptyQueueMsg
          ↔ (Enqueue (NewQueue Nat []) 7).size = 0) ∧
        ((Enqueue (NewQueue Nat []) 7).size = 0 → Size (Enqueue (NewQueue Nat []) 7) = 0) ∧
        (¬ (Enqueue (NewQueue Nat []) 7).size = 0 →
          (Dequeue (Enqueue (NewQueue Nat []) 7)).2.1 = none ∧
          (Peek (Enqueue (NewQueue Nat []) 7)).2.1 = none ∧
          (Peek (Enqueue (NewQueue Nat []) 7)).1
            = (toList (Enqueue (NewQueue Nat []) 7)).getD 0 default ∧
          (Peek (Enqueue (NewQueue Nat []) 7)).2.2 = Enqueue (NewQueue Nat []) 7)) :=
  ⟨by decide, C5_empty_queue_errors (Enqueue (NewQueue Nat []) 7) (by decide)⟩

/-- C6: a single Enqueue on a full queue doubles the capacity exactly; a
nonempty EnqueueBatch that overflows resizes once, to the capacity
obtained by repeatedly doubling the current capacity until it reaches
size + n (a power-of-two multiple, at least the requirement, and minimal
in that half of it is below the requirement); an empty batch changes
nothing. -/
theorem C6_growth_policy (q : Queue T) (x : T) (items : List T) (h : Inv q) :
    (q.size = q.data.length → (Enqueue q x).data.length = 2 * q.data.length) ∧
      (¬ items.length = 0 → q.data.length < q.size + items.length →
        (EnqueueBatch q items).data.length
            = growLoop q.data.length (q.size + items.length) ∧
          q.size + items.length ≤ (EnqueueBatch q items).data.length ∧
          (∃ k, (EnqueueBatch q items).data.length = q.data.length * 2 ^ k) ∧
          (EnqueueBatch q items).data.length / 2 < q.size + items.length) ∧
      EnqueueBatch q [] = q := by
  refine ⟨?_, ?_, EnqueueBatch_nil q⟩
  · intro hf
    rw [Enqueue_length_full q x h hf, Nat.mul_comm]
  · intro hne hg
    have hL := EnqueueBatch_length_grow q items h hne hg
    obtain ⟨h1, _, _, _⟩ := h
    have hge := growLoop_ge q.data.length (q.size + items.length) (by omega)
    refine ⟨hL, by rw [hL]; exact hge, ?_, ?_⟩
    · obtain ⟨k, hk⟩ := growLoop_pow q.data.length (q.size + items.length)
      exact ⟨k, by rw [hL, hk]⟩
    · rcases growLoop_min q.data.length (q.size + items.length) (by omega) with e | hlt
      · exfalso
        rw [e] at hge
        omega
      · rw [hL]
        exact hlt

/-- C6 witness: the theorem applied to a full one-element queue and a
three-item batch. -/
theorem C6_growth_policy_witness :
    Inv (Enqueue (NewQueue Nat []) 1) ∧
      (((Enqueue (NewQueue Nat []) 1).size = (Enqueue (NewQueue Nat []) 1).data.length →
          (Enqueue (Enqueue (NewQueue Nat []) 1) 2).data.length
            = 2 * (Enqueue (NewQueue Nat []) 1).data.length) ∧
        (¬ ([7, 8, 9] : List Nat).length = 0 →
          (Enqueue (NewQueue Nat []) 1).data.length
              < (Enqueue (NewQueue Nat []) 1).size + ([7, 8, 9] : List Nat).length →
          (EnqueueBatch (Enqueue (NewQueue Nat []) 1) [7, 8, 9]).data.length
              = growLoop (Enqueue (NewQueue Nat []) 1).data.length
                  ((Enqueue (NewQueue Nat []) 1).size + ([7, 8, 9] : List Nat).length) ∧
            (Enqueue (NewQueue Nat []) 1).size + ([7, 8, 9] : List Nat).length
              ≤ (EnqueueBatch (Enqueue (NewQueue Nat []) 1) [7, 8, 9]).data.length ∧
            (∃ k, (EnqueueBatch (Enqueue (NewQueue Nat []) 1) [7, 8, 9]).data.length
              = (Enqueue (NewQueue Nat []) 1).data.length * 2 ^ k) ∧
            (EnqueueBatch (Enqueue (NewQueue Nat []) 1) [7, 8, 9]).data.length / 2
              < (Enqueue (NewQueue Nat []) 1).size + ([7, 8, 9] : List Nat).length) ∧
        EnqueueBatch (Enqueue (NewQueue Nat []) 1) [] = Enqueue (NewQueue Nat []) 1) :=
  ⟨by decide, C6_growth_policy (Enqueue (NewQueue Nat []) 1) 2 [7, 8, 9] (by decide)⟩

/-- C7: after a successful Dequeue, when capacity > 1 and the new size is
at most a quarter of the capacity the queue shrinks to half capacity —
copying the live elements in order to the front and setting head = 0 and
tail = size — and otherwise the capacity is unchanged. -/
theorem C7_shrink_policy (q : Queue T) (h : Inv q) (hs : ¬ q.size = 0) :
    (1 < q.data.length ∧ q.size - 1 ≤ q.data.length / 4 →
      (Dequeue q).2.2.data.length = q.data.length / 2 ∧
        (Dequeue q).2.2.head = 0 ∧
        (Dequeue q).2.2.tail = q.size - 1 ∧
        (Dequeue q).2.2.size = q.size - 1 ∧
        toList (Dequeue q).2.2 = (toList q).tail ∧
        (∀ i, i < q.size - 1 →
          (Dequeue q).2.2.data.getD i default = ((toList q).tail).getD i default)) ∧
      (¬ (1 < q.data.length ∧ q.size - 1 ≤ q.data.length / 4) →
        (Dequeue q).2.2.data.length = q.data.length ∧
          (Dequeue q).2.2.size = q.size - 1) := by
  have h' := h
  obtain ⟨h1, h2, h3, h4⟩ := h'
  constructor
  · intro hc
    have hc' : 1 < (dequeueStep q).data.length ∧
        (dequeueStep q).size ≤ (dequeueStep q).data.length / 4 := by
      rw [dequeueStep_length, dequeueStep_size]
      exact hc
    have hlt : (dequeueStep q).size < (dequeueStep q).data.length / 2 := by
      rw [dequeueStep_length, dequeueStep_size]
      omega
    have hnotle : ¬ (dequeueStep q).data.length / 2 ≤ (dequeueStep q).size := by omega
    have htll : toList (resize (dequeueStep q) ((dequeueStep q).data.length / 2))
        = (toList q).tail := by
      rw [resize_toList _ _ hlt, dequeueStep_toList q h hs]
    rw [Dequeue_state q hs, if_pos hc']
    have hinv := resize_inv (dequeueStep q) ((dequeueStep q).data.length / 2) hlt
    refine ⟨?_, resize_head _ _, ?_, ?_, htll, ?_⟩
    · rw [resize_length _ _ hnotle, dequeueStep_length]
    · rw [resize_tail, dequeueStep_size]
    · rw [resize_size, dequeueStep_size]
    · intro i hi
      rw [← htll]
      apply toList_getD_head_zero
      · exact resize_head _ _
      · obtain ⟨_, hb, _, _⟩ := hinv
        exact hb
      · rw [resize_size, dequeueStep_size]
        exact hi
  · intro hc
    have hc' : ¬ (1 < (dequeueStep q).data.length ∧
        (dequeueStep q).size ≤ (dequeueStep q).data.length / 4) := by
      rw [dequeueStep_length, dequeueStep_size]
      exact hc
    rw [Dequeue_state q hs, if_neg hc']
    exact ⟨dequeueStep_length q, dequeueStep_size q⟩

/-- C7 witness: the theorem applied to a queue whose dequeue triggers the
shrink (capacity 4, one live element). -/
theorem C7_shrink_policy_witness :
    Inv (applyOp (EnqueueBatch (NewQueue Nat [4]) [1, 2, 3]) (Op.dequeueBatch 2)) ∧
      ¬ (applyOp (EnqueueBatch (NewQueue Nat [4]) [1, 2, 3]) (Op.dequeueBatch 2)).size = 0 ∧
      ((1 < (applyOp (EnqueueBatch (NewQueue Nat [4]) [1, 2, 3]) (Op.dequeueBatch 2)).data.length ∧
          (applyOp (EnqueueBatch (NewQueue Nat [4]) [1, 2, 3]) (Op.dequeueBatch 2)).size - 1
            ≤ (applyOp (EnqueueBatch (NewQueue Nat [4]) [1, 2, 3]) (Op.dequeueBatch 2)).data.length / 4 →
        (Dequeue (applyOp (EnqueueBatch (NewQueue Nat [4]) [1, 2, 3]) (Op.dequeueBatch 2))).2.2.data.length
            = (applyOp (EnqueueBatch (NewQueue Nat [4]) [1, 2, 3]) (Op.dequeueBatch 2)).data.length / 2 ∧
          (Dequeue (applyOp (EnqueueBatch (NewQueue Nat [4]) [1, 2, 3]) (Op.dequeueBatch 2))).2.2.head = 0 ∧
          (Dequeue (applyOp (EnqueueBatch (NewQueue Nat [4]) [1, 2, 3]) (Op.dequeueBatch 2))).2.2.tail
            = (applyOp (EnqueueBatch (NewQueue Nat [4]) [1, 2, 3]) (Op.dequeueBatch 2)).size - 1 ∧
          (Dequeue (applyOp (EnqueueBatch (NewQueue Nat [4]) [1, 2, 3]) (Op.dequeueBatch 2))).2.2.size
            = (applyOp (EnqueueBatch (NewQueue Nat [4]) [1, 2, 3]) (Op.dequeueBatch 2)).size - 1 ∧
          toList (Dequeue (applyOp (EnqueueBatch (NewQueue Nat [4]) [1, 2, 3]) (Op.dequeueBatch 2))).2.2
            = (toList (applyOp (EnqueueBatch (NewQueue Nat [4]) [1, 2, 3]) (Op.dequeueBatch 2))).tail ∧
          (∀ i, i < (applyOp (EnqueueBatch (NewQueue Nat [4]) [1, 2, 3]) (Op.dequeueBatch 2)).size - 1 →
            (Dequeue (applyOp (EnqueueBatch (NewQueue Nat [4]) [1, 2, 3]) (Op.dequeueBatch 2))).2.2.data.getD i default
              = ((toList (applyOp (EnqueueBatch (NewQueue Nat [4]) [1, 2, 3]) (Op.dequeueBatch 2))).tail).getD i default)) ∧
        (¬ (1 < (applyOp (EnqueueBatch (NewQueue Nat [4]) [1, 2, 3]) (Op.dequeueBatch 2)).data.length ∧
            (applyOp (EnqueueBatch (NewQueue Nat [4]) [1, 2, 3]) (Op.dequeueBatch 2)).size - 1
              ≤ (applyOp (EnqueueBatch (NewQueue Nat [4]) [1, 2, 3]) (Op.dequeueBatch 2)).data.length / 4) →
          (Dequeue (applyOp (EnqueueBatch (NewQueue Nat [4]) [1, 2, 3]) (Op.dequeueBatch 2))).2.2.data.length
              = (applyOp (EnqueueBatch (NewQueue Nat [4]) [1, 2, 3]) (Op.dequeueBatch 2)).data.length ∧
            (Dequeue (applyOp (EnqueueBatch (NewQueue Nat [4]) [1, 2, 3]) (Op.dequeueBatch 2))).2.2.size
              = (applyOp (EnqueueBatch (NewQueue Nat [4]) [1, 2, 3]) (Op.dequeueBatch 2)).size - 1)) :=
  ⟨by decide, by decide,
    C7_shrink_policy (applyOp (EnqueueBatch (NewQueue Nat [4]) [1, 2, 3]) (Op.dequeueBatch 2))
      (by decide) (by decide)⟩

/-- C8: a successful Dequeue that does not shrink leaves the storage equal
to the old storage with the vacated head slot overwritten by the zero
value, and after any sequence of public operations from a fresh queue
every slot outside the occupied window holds the zero value. -/
theorem C8_zero_outside_window (sizes : List Int) (ops : List (Op T)) (q : Queue T)
    (_h : Inv q) (hs : ¬ q.size = 0) :
    (¬ (1 < q.data.length ∧ q.size - 1 ≤ q.data.length / 4) →
        (Dequeue q).2.2.data = q.data.set q.head default) ∧
      ZeroOutside (applyOps (NewQueue T sizes) ops) := by
  refine ⟨?_, applyOps_zeroOutside ops _ (NewQueue_inv sizes) (NewQueue_zeroOutside sizes)⟩
  intro hc
  have hc' : ¬ (1 < (dequeueStep q).data.length ∧
      (dequeueStep q).size ≤ (dequeueStep q).data.length / 4) := by
    rw [dequeueStep_length, dequeueStep_size]
    exact hc
  rw [Dequeue_state q hs, if_neg hc']
  rfl

/-- C8 witness: the theorem applied to a no-shrink dequeue and a concrete
operation sequence. -/
theorem C8_zero_outside_window_witness :
    Inv (Enqueue (Enqueue (NewQueue Nat []) 1) 2) ∧
      ¬ (Enqueue (Enqueue (NewQueue Nat []) 1) 2).size = 0 ∧
      ((¬ (1 < (Enqueue (Enqueue (NewQueue Nat []) 1) 2).data.length ∧
            (Enqueue (Enqueue (NewQueue Nat []) 1) 2).size - 1
              ≤ (Enqueue (Enqueue (NewQueue Nat []) 1) 2).data.length / 4) →
          (Dequeue (Enqueue (Enqueue (NewQueue Nat []) 1) 2)).2.2.data
            = (Enqueue (Enqueue (NewQueue Nat []) 1) 2).data.set
                (Enqueue (Enqueue (NewQueue Nat []) 1) 2).head default) ∧
        ZeroOutside (applyOps (NewQueue Nat [2])
          [Op.enqueue 4, Op.enqueue 5, Op.dequeue, Op.enqueue 6, Op.dequeue])) :=
  ⟨by decide, by decide,
    C8_zero_outside_window [2]
      [Op.enqueue 4, Op.enqueue 5, Op.dequeue, Op.enqueue 6, Op.dequeue]
      (Enqueue (Enqueue (NewQueue Nat []) 1) 2) (by decide) (by decide)⟩

/-- C9 counterexample: on a full queue (capacity 1 holding the element 5)
whose growth allocation fails, the triggering Enqueue does not leave the
queue in its prior valid state: the queue changes, its size exceeds its
unchanged capacity (so the representation invariant is broken), and the
logical content is not the expected appended list — the new element
overwrote the oldest one. -/
theorem C9_counterexample :
    Inv (Enqueue (NewQueue Nat []) 5) ∧
      EnqueueOOM (Enqueue (NewQueue Nat []) 5) 7 ≠ Enqueue (NewQueue Nat []) 5 ∧
      (EnqueueOOM (Enqueue (NewQueue Nat []) 5) 7).size = 2 ∧
      (EnqueueOOM (Enqueue (NewQueue Nat []) 5) 7).data.length = 1 ∧
      ¬ Inv (EnqueueOOM (Enqueue (NewQueue Nat []) 5) 7) ∧
      toList (EnqueueOOM (Enqueue (NewQueue Nat []) 5) 7)
        ≠ toList (Enqueue (NewQueue Nat []) 5) ++ [7] := by
  decide

/-- C9 as amended: when the allocation inside resize fails, resize itself
aborts with every field of the queue unchanged, and a triggering Dequeue
still completes correctly (same element, nil error, valid post-dequeue
state at the pre-shrink capacity); but a triggering Enqueue on a full
queue is not aborted — it proceeds to write at tail, incrementing size
past the unchanged capacity and breaking the invariant. -/
theorem C9_allocation_failure (q : Queue T) (n : Nat) (x : T) (h : Inv q) :
    resizeOOM q n = q ∧
      (¬ q.size = 0 → (DequeueOOM q).1 = (toList q).getD 0 default ∧
        (DequeueOOM q).2.1 = none ∧
        Inv (DequeueOOM q).2.2 ∧
        toList (DequeueOOM q).2.2 = (toList q).tail ∧
        (DequeueOOM q).2.2.data.length = q.data.length) ∧
      (q.size = q.data.length →
        (EnqueueOOM q x).size = q.size + 1 ∧
        (EnqueueOOM q x).data.length = q.data.length ∧
        ¬ Inv (EnqueueOOM q x)) := by
  refine ⟨rfl, ?_, ?_⟩
  · intro hs
    rw [DequeueOOM_eq q hs]
    refine ⟨?_, rfl, dequeueStep_inv q h hs, dequeueStep_toList q h hs, dequeueStep_length q⟩
    rw [toList_cons q h hs]
    rfl
  · intro hf
    rw [EnqueueOOM_eq]
    refine ⟨writeTail_size q x, writeTail_length q x, ?_⟩
    intro hbad
    obtain ⟨_, hb, _, _⟩ := hbad
    rw [writeTail_size, writeTail_length] at hb
    omega

/-- C9 witness: the amended theorem applied to the full one-element
queue. -/
theorem C9_allocation_failure_witness :
    Inv (Enqueue (NewQueue Nat []) 5) ∧
      (resizeOOM (Enqueue (NewQueue Nat []) 5) 2 = Enqueue (NewQueue Nat []) 5 ∧
        (¬ (Enqueue (NewQueue Nat []) 5).size = 0 →
          (DequeueOOM (Enqueue (NewQueue Nat []) 5)).1
              = (toList (Enqueue (NewQueue Nat []) 5)).getD 0 default ∧
            (DequeueOOM (Enqueue (NewQueue Nat []) 5)).2.1 = none ∧
            Inv (DequeueOOM (Enqueue (NewQueue Nat []) 5)).2.2 ∧
            toList (DequeueOOM (Enqueue (NewQueue Nat []) 5)).2.2
              = (toList (Enqueue (NewQueue Nat []) 5)).tail ∧
            (DequeueOOM (Enqueue (NewQueue Nat []) 5)).2.2.data.length
              = (Enqueue (NewQueue Nat []) 5).data.length) ∧
        ((Enqueue (NewQueue Nat []) 5).size = (Enqueue (NewQueue Nat []) 5).data.length →
          (EnqueueOOM (Enqueue (NewQueue Nat []) 5) 7).size
              = (Enqueue (NewQueue Nat []) 5).size + 1 ∧
            (EnqueueOOM (Enqueue (NewQueue Nat []) 5) 7).data.length
              = (Enqueue (NewQueue Nat []) 5).data.length ∧
            ¬ Inv (EnqueueOOM (Enqueue (NewQueue Nat []) 5) 7))) :=
  ⟨by decide, C9_allocation_failure (Enqueue (NewQueue Nat []) 5) 2 7 (by decide)⟩

/-- C10: Dequeue and Peek on an empty queue return exactly the zero value
of the element type together with the empty-queue error, and the whole
queue state (storage, head, tail, size, capacity) is returned
unchanged. -/
theorem C10_error_atomicity (q : Queue T) (hs : q.size = 0) :
    Dequeue q = (default, some emptyQueueMsg, q) ∧
      Peek q = (default, some emptyQueueMsg, q) :=
  ⟨Dequeue_empty q hs, Peek_empty q hs⟩

/-- C10 witness: the theorem applied to a freshly created queue. -/
theorem C10_error_atomicity_witness :
    (NewQueue Nat []).size = 0 ∧
      (Dequeue (NewQueue Nat []) = (default, some emptyQueueMsg, NewQueue Nat []) ∧
        Peek (NewQueue Nat []) = (default, some emptyQueueMsg, NewQueue Nat [])) :=
  ⟨by decide, C10_error_atomicity (NewQueue Nat []) (by decide)⟩

end Kewpie
